import Mathlib

set_option maxRecDepth 8000

/-!
Shallow embedding of the pool engine of `src/uniswap_v3_pool.py`
(class `UniswapV3Pool`), together with theorems settling the frozen
claims about it.

Modelling conventions:
* Python `dict` becomes an association list (`Dict`) with first-match
  lookup, in-place update of an existing key, and append of a new key
  (this reproduces Python's insertion-order semantics).
* Python `int` becomes `ℤ`; Python `float` arithmetic is modelled as
  exact arithmetic over `ℚ` (and `ℝ` for `math.log` / exponentials in
  the tick conversions); `int(x)` on a non-negative value is `⌊x⌋`.
* `int(math.sqrt(q) * 2**96)` for `q ≥ 0` equals `⌊√(q·2^192)⌋`, which
  is `Nat.sqrt ⌊q·2^192⌋`.
* A raised `ValueError` / `KeyError` in `remove_position` becomes an
  explicit result constructor carrying the (possibly partially
  mutated) pool, because Python exceptions leave prior in-place
  mutations visible.
-/

namespace UniSim

/-- Association-list model of a Python `dict`: first-match lookup. -/
abbrev Dict (κ α : Type) := List (κ × α)

/-- d.get(k) / `k in d` test, first match. -/
def dictLookup {κ α : Type} [DecidableEq κ] : Dict κ α → κ → Option α
  | [], _ => none
  | (k1, v1) :: d, k => if k1 = k then some v1 else dictLookup d k

/-- d[k] = v: replace the value of an existing key in place, append a new key. -/
def dictSet {κ α : Type} [DecidableEq κ] : Dict κ α → κ → α → Dict κ α
  | [], k, v => [(k, v)]
  | (k1, v1) :: d, k, v => if k1 = k then (k, v) :: d else (k1, v1) :: dictSet d k v

/-- del d[k]: drop the (unique in practice) entry of key k. -/
def dictErase {κ α : Type} [DecidableEq κ] : Dict κ α → κ → Dict κ α
  | [], _ => []
  | (k1, v1) :: d, k => if k1 = k then d else (k1, v1) :: dictErase d k

/-- d.get(k, dflt). -/
def dictGetD {κ α : Type} [DecidableEq κ] (d : Dict κ α) (k : κ) (dflt : α) : α :=
  (dictLookup d k).getD dflt

/-- Python `if k not in d: d[k] = 0` (zero-initialise a missing entry). -/
def dictEnsure (d : Dict ℤ ℤ) (k : ℤ) : Dict ℤ ℤ :=
  if (dictLookup d k).isSome then d else dictSet d k 0

/-- Sum of all stored values of the dict (the Tick Ledger net deltas). -/
def sumValues (d : Dict ℤ ℤ) : ℤ := (d.map Prod.snd).sum

/-- Keys of the dict, in insertion order (`d.keys()`). -/
def dictKeys {κ α : Type} (d : Dict κ α) : List κ := d.map Prod.fst

/-- Insertion step of the insertion sort used to model Python `sorted`. -/
def insertBy (le : ℤ → ℤ → Bool) (x : ℤ) : List ℤ → List ℤ
  | [] => [x]
  | y :: l => if le x y then x :: y :: l else y :: insertBy le x l

/-- Stable insertion sort, modelling Python `sorted(keys)` (ascending when
`le` is `≤`, descending when `le` is `≥`, i.e. `reverse=True`). -/
def sortBy (le : ℤ → ℤ → Bool) : List ℤ → List ℤ
  | [] => []
  | x :: l => insertBy le x (sortBy le l)

/-- Position keys are (owner, lower_tick, upper_tick); owners are modelled as ℕ. -/
abbrev PosKey := ℕ × ℤ × ℤ

/-- Pool state of `UniswapV3Pool.__init__` (lines 15-23): fee, tick spacing,
current sqrt price (Q64.96 integer), active liquidity, current tick, the
Position Ledger `positions` and the Tick Ledger `ticks`. `token0`/`token1`
carry no behaviour in the pool engine and are omitted. -/
structure Pool where
  fee : ℚ
  tick_spacing : ℤ
  sqrt_price_x96 : ℤ
  liquidity : ℤ
  tick : ℤ
  positions : Dict PosKey ℤ
  ticks : Dict ℤ ℤ
deriving DecidableEq

/-- math.floor(tick / spacing) * spacing (lines 53-54): Python `/` on ints is
real division, so `floor` of it is floor division, i.e. `Int.fdiv`. -/
def alignTick (t s : ℤ) : ℤ := Int.fdiv t s * s

/-- get_tick_at_sqrt_price (lines 25-35). price_value = m / 2^96 is ≤ 0 iff
m ≤ 0 (the divisor is positive); in that case the minimum tick is returned.
Otherwise the result is floor(math.log(price_value, math.sqrt(1.0001))),
modelled in exact real arithmetic via `Real.logb`. The `except` arm of the
source is unreachable in this exact model (the log argument is positive and
the divisor nonzero). -/
noncomputable def get_tick_at_sqrt_price (m : ℤ) : ℤ :=
  if m ≤ 0 then -887272
  else ⌊Real.logb (Real.sqrt 1.0001) ((m : ℝ) / 2 ^ 96)⌋

/-- get_sqrt_price_at_tick (lines 37-40): clamp the tick into
[-887272, 887272], then int(1.0001 ** (tick / 2) * 2**96). The value is
positive throughout the clamped range, so Python's truncating `int` is the
floor. -/
noncomputable def get_sqrt_price_at_tick (t : ℤ) : ℤ :=
  ⌊(1.0001 : ℝ) ^ (((max (-887272) (min t 887272) : ℤ) : ℝ) / 2) * 2 ^ 96⌋

/-- Fresh pool with an explicitly given current tick. `__init__` computes the
tick from the initial sqrt price; `mkPool` below does exactly that, and this
computable variant is related to it by `mkPool_eq_initPool`. -/
def initPool (fee : ℚ) (spacing sqrtPrice tick : ℤ) : Pool :=
  { fee := fee, tick_spacing := spacing, sqrt_price_x96 := sqrtPrice,
    liquidity := 0, tick := tick, positions := [], ticks := [] }

/-- Fresh pool as built by `UniswapV3Pool.__init__` (lines 15-23). -/
noncomputable def mkPool (fee : ℚ) (spacing sqrtPrice : ℤ) : Pool :=
  initPool fee spacing sqrtPrice (get_tick_at_sqrt_price sqrtPrice)

/-- add_position (lines 42-76): align both ticks down to multiples of the
tick spacing, accumulate into the position, add ±amount to the two tick
entries (zero-initialising missing entries first), and bump active liquidity
when the pool's current tick lies in [lower, upper). -/
def add_position (p : Pool) (owner : ℕ) (lower upper amount : ℤ) : Pool :=
  let lt := alignTick lower p.tick_spacing
  let ut := alignTick upper p.tick_spacing
  let key : PosKey := (owner, lt, ut)
  let positions := dictSet p.positions key (dictGetD p.positions key 0 + amount)
  let ticks1 := dictEnsure (dictEnsure p.ticks lt) ut
  let ticks2 := dictSet ticks1 lt (dictGetD ticks1 lt 0 + amount)
  let ticks3 := dictSet ticks2 ut (dictGetD ticks2 ut 0 - amount)
  let liq := if lt ≤ p.tick ∧ p.tick < ut then p.liquidity + amount else p.liquidity
  { p with positions := positions, ticks := ticks3, liquidity := liq }

/-- Result of `remove_position`. `invalidPosition` is the `ValueError`
raised by the precondition check (line 83), before any mutation, so it
carries the unchanged pool. `keyErr` models the `KeyError` a bare
`self.ticks[t] -= amount` would raise on a missing tick key (lines 91-92);
it carries the partially mutated pool (Python would have already updated
`positions`). -/
inductive RemoveResult where
  | ok (p : Pool)
  | invalidPosition (p : Pool)
  | keyErr (p : Pool)
deriving DecidableEq

/-- Pool carried by a `RemoveResult`, whatever the outcome. -/
def RemoveResult.pool : RemoveResult → Pool
  | .ok p => p
  | .invalidPosition p => p
  | .keyErr p => p

/-- remove_position (lines 78-96): the key is used exactly as passed (no
alignment). Fail if the position is missing or holds less than `amount`;
otherwise decrement it (deleting it at exactly 0), undo the two tick deltas,
and decrement active liquidity when in range. -/
def remove_position (p : Pool) (owner : ℕ) (lower upper amount : ℤ) : RemoveResult :=
  let key : PosKey := (owner, lower, upper)
  match dictLookup p.positions key with
  | none => .invalidPosition p
  | some v =>
    if v < amount then .invalidPosition p
    else
      let positions :=
        if v - amount = 0 then dictErase p.positions key
        else dictSet p.positions key (v - amount)
      let p1 := { p with positions := positions }
      match dictLookup p1.ticks lower with
      | none => .keyErr p1
      | some dl =>
        let p2 := { p1 with ticks := dictSet p1.ticks lower (dl - amount) }
        match dictLookup p2.ticks upper with
        | none => .keyErr p2
        | some du =>
          let p3 := { p2 with ticks := dictSet p2.ticks upper (du + amount) }
          if lower ≤ p.tick ∧ p.tick < upper then
            .ok { p3 with liquidity := p3.liquidity - amount }
          else .ok p3

/-- cross_tick (lines 123-139). Note that `p.tick` here is whatever the
caller left in the pool; `swap_simple` calls this after already storing the
new tick (line 213), so during a swap the comparison `p.tick < t` is
"new tick below the crossed tick". The final `max 0` is line 139. -/
def cross_tick (p : Pool) (t : ℤ) : Pool :=
  let net := dictGetD p.ticks t 0
  let liq :=
    if p.tick < t then p.liquidity + net
    else if p.liquidity < net then 0 else p.liquidity - net
  { p with liquidity := max 0 liq }

/-- Fold of `cross_tick` over a list of ticks (the crossing loop body). -/
def crossAll (ts : List ℤ) (p : Pool) : Pool := ts.foldl cross_tick p

/-- Tick-crossing phase of `swap_simple` (lines 216-227). The pool's `tick`
field has already been set to the new tick; `oldTick` is the pre-swap tick.
Moving down (zeroForOne) visits keys in descending order and crosses those
with `oldTick ≥ t > newTick`; moving up visits ascending keys with
`oldTick ≤ t < newTick`. -/
def applyCrossings (p : Pool) (zeroForOne : Bool) (oldTick : ℤ) : Pool :=
  if oldTick ≠ p.tick then
    if zeroForOne then
      crossAll ((sortBy (fun a b => decide (b ≤ a)) (dictKeys p.ticks)).filter
        (fun t => decide (t ≤ oldTick) && decide (p.tick < t))) p
    else
      crossAll ((sortBy (fun a b => decide (a ≤ b)) (dictKeys p.ticks)).filter
        (fun t => decide (oldTick ≤ t) && decide (t < p.tick))) p
  else p

/-- int(math.sqrt(q) * 2**96) for q ≥ 0, in exact arithmetic:
⌊√q · 2^96⌋ = ⌊√(q · 2^192)⌋ = Nat.sqrt ⌊q · 2^192⌋. (For q < 0 Python
would raise; this total model returns 0 there, a case no claim relies on.) -/
def floorSqrtX96 (q : ℚ) : ℤ := (Nat.sqrt (Int.toNat ⌊q * 2 ^ 192⌋) : ℤ)

/-- Python `int()` truncation toward zero on an exact rational. -/
def pyInt (q : ℚ) : ℤ := if 0 ≤ q then ⌊q⌋ else ⌈q⌉

/-- Descaled (human-readable) pool price: (sqrt_price_x96 / 2^96) ** 2
(line 161). -/
def descaledPrice (p : Pool) : ℚ := ((p.sqrt_price_x96 : ℚ) / 2 ^ 96) ^ 2

/-- Price-impact phase of `swap_simple` (lines 156-209): fee, low-price
clamp, effective liquidity, capped impact factor, new price and output
amount, and the new sqrt price stored into the pool. Returns the updated
pool and the signed `(amount0, amount1)` pair. The 0.1 cap on the impact
factor (lines 181 and 198) is identical in both branches and hoisted. -/
def swapPriceStep (p : Pool) (zeroForOne : Bool) (amountSpecified : ℚ) :
    Pool × ℚ × ℚ :=
  let amount_in := amountSpecified * (1 - p.fee)
  let sp0 := descaledPrice p
  let pc := if sp0 < 1 / 10 then
      { p with sqrt_price_x96 := floorSqrtX96 (max sp0 (1 / 20)) } else p
  let starting_price := if sp0 < 1 / 10 then max sp0 (1 / 20) else sp0
  let effective_liquidity := max 1000000 ((p.liquidity : ℚ) / 10 ^ 9)
  let impact_factor := min (amount_in / (effective_liquidity * 100)) (1 / 10)
  if zeroForOne then
    let new_price := max (1 / 10) (starting_price * (1 - impact_factor))
    let avg_price := (starting_price + new_price) / 2
    let token1_out := amount_in * avg_price
    ({ pc with sqrt_price_x96 := max 1 (floorSqrtX96 new_price) },
      amountSpecified, -(pyInt token1_out : ℚ))
  else
    let new_price := starting_price * (1 + impact_factor)
    let avg_price := (starting_price + new_price) / 2
    let token0_out := if 0 < avg_price then amount_in / avg_price else 0
    ({ pc with sqrt_price_x96 := floorSqrtX96 new_price },
      -(pyInt token0_out : ℚ), amountSpecified)

/-- Tick-update and crossing phase of `swap_simple` (lines 211-227): store
the tick recomputed from the new sqrt price, then run the crossing loop
(which is a no-op when the tick did not change). -/
noncomputable def updateTickAndCross (p : Pool) (zeroForOne : Bool) (oldTick : ℤ) : Pool :=
  applyCrossings { p with tick := get_tick_at_sqrt_price p.sqrt_price_x96 }
    zeroForOne oldTick

/-- swap_simple (lines 141-232): no-op on non-positive amount or
non-positive active liquidity (lines 153-154), else the price-impact step
followed by the tick update and crossings. Returns the updated pool and the
signed amounts of lines 229-232. -/
noncomputable def swap_simple (p : Pool) (zeroForOne : Bool) (amountSpecified : ℚ) :
    Pool × ℚ × ℚ :=
  if amountSpecified ≤ 0 ∨ p.liquidity ≤ 0 then (p, 0, 0)
  else
    let r := swapPriceStep p zeroForOne amountSpecified
    (updateTickAndCross r.1 zeroForOne p.tick, r.2)

/-- One ledger operation: an `add_position` or a `remove_position` call. -/
inductive Op where
  | add (owner : ℕ) (lower upper amount : ℤ)
  | remove (owner : ℕ) (lower upper amount : ℤ)
deriving DecidableEq

/-- Apply one operation; a failed removal leaves whatever pool the failure
left behind (unchanged for `invalidPosition`). -/
def Op.apply (p : Pool) : Op → Pool
  | .add o l u a => add_position p o l u a
  | .remove o l u a => (remove_position p o l u a).pool

/-- Apply a sequence of ledger operations in order. -/
def applyOps (p : Pool) (ops : List Op) : Pool := ops.foldl Op.apply p

/-- Amount-positivity side condition used by claim C9: every `add` in the
sequence carries a positive amount (removals are unconstrained). -/
def Op.addAmountPos : Op → Prop
  | .add _ _ _ a => 0 < a
  | .remove _ _ _ _ => True

/-- Apply a sequence of swaps (direction, amount). -/
noncomputable def swapSeq (p : Pool) (l : List (Bool × ℚ)) : Pool :=
  l.foldl (fun q za => (swap_simple q za.1 za.2).1) p

/-! Basic association-list (Python dict) lemmas. -/

theorem dictLookup_set_self {κ α : Type} [DecidableEq κ] (d : Dict κ α) (k : κ) (v : α) :
    dictLookup (dictSet d k v) k = some v := by
  induction d with
  | nil => simp [dictSet, dictLookup]
  | cons hd tl ih =>
    obtain ⟨k1, v1⟩ := hd
    by_cases h : k1 = k
    · simp [dictSet, dictLookup, h]
    · simp [dictSet, dictLookup, h, ih]

theorem dictLookup_set_ne {κ α : Type} [DecidableEq κ] (d : Dict κ α) (k k2 : κ) (v : α)
    (h : k2 ≠ k) : dictLookup (dictSet d k v) k2 = dictLookup d k2 := by
  have h2 : ¬(k = k2) := fun hh => h hh.symm
  induction d with
  | nil => simp [dictSet, dictLookup, h2]
  | cons hd tl ih =>
    obtain ⟨k1, v1⟩ := hd
    by_cases h1 : k1 = k
    · subst h1
      simp [dictSet, dictLookup, h2]
    · simp [dictSet, dictLookup, h1, ih]

theorem dictGetD_set_self {κ : Type} [DecidableEq κ] (d : Dict κ ℤ) (k : κ) (v : ℤ) :
    dictGetD (dictSet d k v) k 0 = v := by
  simp [dictGetD, dictLookup_set_self]

theorem dictGetD_set_ne {κ : Type} [DecidableEq κ] (d : Dict κ ℤ) (k k2 : κ) (v : ℤ)
    (h : k2 ≠ k) : dictGetD (dictSet d k v) k2 0 = dictGetD d k2 0 := by
  simp [dictGetD, dictLookup_set_ne _ _ _ _ h]

theorem dictLookup_set_isSome {κ α : Type} [DecidableEq κ] (d : Dict κ α) (k k2 : κ) (v : α)
    (h : (dictLookup d k2).isSome) : (dictLookup (dictSet d k v) k2).isSome := by
  by_cases hk : k2 = k
  · subst hk; simp [dictLookup_set_self]
  · rwa [dictLookup_set_ne _ _ _ _ hk]

theorem sumValues_set (d : Dict ℤ ℤ) (k v : ℤ) :
    sumValues (dictSet d k v) = sumValues d + v - dictGetD d k 0 := by
  induction d with
  | nil => simp [dictSet, sumValues, dictGetD, dictLookup]
  | cons hd tl ih =>
    obtain ⟨k1, v1⟩ := hd
    by_cases h : k1 = k
    · simp [dictSet, sumValues, dictGetD, dictLookup, h]
      ring
    · simp only [dictSet, if_neg h, sumValues, List.map_cons, List.sum_cons,
        dictGetD, dictLookup, if_neg h] at *
      omega

theorem dictSet_lookup_eq {κ α : Type} [DecidableEq κ] (d : Dict κ α) (k : κ) (v : α)
    (h : dictLookup d k = some v) : dictSet d k v = d := by
  induction d with
  | nil => simp [dictLookup] at h
  | cons hd tl ih =>
    obtain ⟨k1, v1⟩ := hd
    by_cases h1 : k1 = k
    · subst h1
      simp [dictLookup] at h
      simp [dictSet, h]
    · simp [dictLookup, h1] at h
      simp [dictSet, h1, ih h]

theorem dictSet_dictSet {κ α : Type} [DecidableEq κ] (d : Dict κ α) (k : κ) (v w : α) :
    dictSet (dictSet d k v) k w = dictSet d k w := by
  induction d with
  | nil => simp [dictSet]
  | cons hd tl ih =>
    obtain ⟨k1, v1⟩ := hd
    by_cases h : k1 = k <;> simp [dictSet, h, ih]

theorem dictErase_set_none {κ α : Type} [DecidableEq κ] (d : Dict κ α) (k : κ) (v : α)
    (h : dictLookup d k = none) : dictErase (dictSet d k v) k = d := by
  induction d with
  | nil => simp [dictSet, dictErase]
  | cons hd tl ih =>
    obtain ⟨k1, v1⟩ := hd
    by_cases h1 : k1 = k
    · simp [dictLookup, h1] at h
    · simp [dictLookup, h1] at h
      simp [dictSet, dictErase, h1, ih h]

/-! Claim theorems, first batch. -/

/-- Concrete pool used to exhibit the tick-crossing direction slip: the
swap has already stored the new tick -10 (price moved down from old tick
10), the Tick Ledger holds net delta +5 at tick 0, and active liquidity
is 7. -/
def crossBugPoolDown : Pool :=
  { fee := 0, tick_spacing := 1, sqrt_price_x96 := 2 ^ 96, liquidity := 7,
    tick := -10, positions := [], ticks := [(0, 5)] }

/-- Mirror image for the upward direction: new tick 10 already stored,
old tick -10, same ledger entry +5 at tick 0, liquidity 7. -/
def crossBugPoolUp : Pool :=
  { fee := 0, tick_spacing := 1, sqrt_price_x96 := 2 ^ 96, liquidity := 7,
    tick := 10, positions := [], ticks := [(0, 5)] }

/-- C1: the claim (and the comments of `cross_tick` itself) say a downward
crossing subtracts the tick's net delta and an upward crossing adds it.
Because `swap_simple` stores the new tick before running the crossing loop,
`cross_tick`'s test `self.tick < tick` sees the new tick and the two
directions are inverted: crossing tick 0 with net delta +5 while moving
down (old tick 10, new tick -10) ADDS the delta (liquidity 7 becomes 12,
not 2), and the same crossing while moving up SUBTRACTS it (liquidity 7
becomes 2, not 12). -/
theorem claim_C1_crossing_direction_inverted :
    (applyCrossings crossBugPoolDown true 10).liquidity = 12 ∧
      (applyCrossings crossBugPoolUp false (-10)).liquidity = 2 := by
  constructor <;> rfl

/-- C6: a swap with a non-positive amount, or on a pool with non-positive
active liquidity, returns (0, 0) and leaves the pool (sqrt price, tick,
liquidity, ledgers) completely unchanged. -/
theorem claim_C6_swap_noop (p : Pool) (zeroForOne : Bool) (amountSpecified : ℚ)
    (h : amountSpecified ≤ 0 ∨ p.liquidity ≤ 0) :
    swap_simple p zeroForOne amountSpecified = (p, 0, 0) := by
  unfold swap_simple
  rw [if_pos h]

/-- Closed instance of C6 at a concrete fresh pool and amount 0. -/
theorem claim_C6_swap_noop_witness :
    swap_simple (initPool 0 1 (2 ^ 96) 0) true 0 = (initPool 0 1 (2 ^ 96) 0, 0, 0) :=
  claim_C6_swap_noop (initPool 0 1 (2 ^ 96) 0) true 0 (Or.inl le_rfl)

/-- C7: `remove_position` returns the invalid-position failure exactly when
the position key is absent or holds less liquidity than requested, and in
that case the carried pool is the input pool, unchanged (the check precedes
every mutation). -/
theorem claim_C7_remove_invalid_iff (p : Pool) (owner : ℕ) (lower upper amount : ℤ) :
    (remove_position p owner lower upper amount = .invalidPosition p ↔
      dictLookup p.positions (owner, lower, upper) = none ∨
        ∃ v, dictLookup p.positions (owner, lower, upper) = some v ∧ v < amount) ∧
    (∀ q, remove_position p owner lower upper amount = .invalidPosition q → q = p) := by
  cases h : dictLookup p.positions (owner, lower, upper) with
  | none =>
    refine ⟨by simp [remove_position, h], fun q hq => ?_⟩
    simp [remove_position, h] at hq
    exact hq.symm
  | some v =>
    by_cases hv : v < amount
    · refine ⟨by simp [remove_position, h, hv], fun q hq => ?_⟩
      simp [remove_position, h, hv] at hq
      exact hq.symm
    · have hres : ∀ q, remove_position p owner lower upper amount ≠ .invalidPosition q := by
        intro q
        simp only [remove_position, h]
        rw [if_neg hv]
        cases h1 : dictLookup p.ticks lower with
        | none => simp
        | some dl =>
          cases h2 : dictLookup (dictSet p.ticks lower (dl - amount)) upper with
          | none => simp [h2]
          | some du =>
            by_cases hrange : lower ≤ p.tick ∧ p.tick < upper
            · simp [h2, hrange]
            · simp [h2, hrange]
      refine ⟨⟨fun hq => absurd hq (hres p), ?_⟩, fun q hq => absurd hq (hres q)⟩
      rintro (hc | ⟨w, hw, hlt⟩)
      · cases hc
      · cases hw
        exact absurd hlt hv

/-- Closed instance of C7: removing from an empty ledger fails with the
invalid-position error and the pool is unchanged. -/
theorem claim_C7_remove_invalid_iff_witness :
    remove_position (initPool 0 1 (2 ^ 96) 0) 0 0 10 5 = .invalidPosition (initPool 0 1 (2 ^ 96) 0) :=
  (claim_C7_remove_invalid_iff (initPool 0 1 (2 ^ 96) 0) 0 0 10 5).1.mpr (Or.inl rfl)

/-- Core of the aligned-add / raw-remove key mismatch: if the raw key
differs from the aligned key and no position is stored under the raw key,
then removing right after adding fails with the invalid-position error,
leaving the post-add pool untouched. -/
theorem remove_misses_aligned_add (p : Pool) (owner : ℕ) (lower upper amount : ℤ)
    (hkey : ((owner, lower, upper) : PosKey) ≠
      (owner, alignTick lower p.tick_spacing, alignTick upper p.tick_spacing))
    (habs : dictLookup p.positions (owner, lower, upper) = none) :
    remove_position (add_position p owner lower upper amount) owner lower upper amount =
      .invalidPosition (add_position p owner lower upper amount) := by
  have hlook : dictLookup (add_position p owner lower upper amount).positions
      (owner, lower, upper) = none := by
    simp only [add_position]
    rw [dictLookup_set_ne _ _ _ _ hkey]
    exact habs
  simp only [remove_position, hlook]

/-- C10: `add_position` stores the position under spacing-aligned ticks but
`remove_position` looks up the caller's raw ticks, so adding with unaligned
boundaries and removing with the same boundaries fails with the
invalid-position error (leaving the just-added position in place) whenever
no position was already stored under the raw key. -/
theorem claim_C10_unaligned_remove_fails (p : Pool) (owner : ℕ) (lower upper amount : ℤ)
    (hspace : 0 < p.tick_spacing)
    (hmis : alignTick lower p.tick_spacing ≠ lower ∨ alignTick upper p.tick_spacing ≠ upper)
    (habs : dictLookup p.positions (owner, lower, upper) = none) :
    remove_position (add_position p owner lower upper amount) owner lower upper amount =
      .invalidPosition (add_position p owner lower upper amount) := by
  refine remove_misses_aligned_add p owner lower upper amount ?_ habs
  intro hcontra
  rcases hmis with hm | hm
  · exact hm (congrArg (fun k : PosKey => k.2.1) hcontra).symm
  · exact hm (congrArg (fun k : PosKey => k.2.2) hcontra).symm

/-- Closed instance of C10: spacing 10, boundaries 5 and 15 (both
unaligned); the add stores the position at (0, 10) and the remove with
(5, 15) fails. -/
theorem claim_C10_unaligned_remove_fails_witness :
    remove_position (add_position (initPool 0 10 (2 ^ 96) 0) 0 5 15 7) 0 5 15 7 =
      .invalidPosition (add_position (initPool 0 10 (2 ^ 96) 0) 0 5 15 7) :=
  claim_C10_unaligned_remove_fails (initPool 0 10 (2 ^ 96) 0) 0 5 15 7
    (by decide) (Or.inl (by decide)) rfl

/-! Ledger invariant machinery for the operation-sequence claims. -/

theorem dictLookup_some_mem {κ α : Type} [DecidableEq κ] (d : Dict κ α) (k : κ) (v : α)
    (h : dictLookup d k = some v) : (k, v) ∈ d := by
  induction d with
  | nil => simp [dictLookup] at h
  | cons hd tl ih =>
    obtain ⟨k1, v1⟩ := hd
    by_cases h1 : k1 = k
    · subst h1
      simp [dictLookup] at h
      simp [h]
    · simp [dictLookup, h1] at h
      simp [ih h]

theorem mem_dictSet {κ α : Type} [DecidableEq κ] (d : Dict κ α) (k : κ) (v : α)
    (e : κ × α) (h : e ∈ dictSet d k v) : e ∈ d ∨ e = (k, v) := by
  induction d with
  | nil =>
    simp [dictSet] at h
    simp [h]
  | cons hd tl ih =>
    obtain ⟨k1, v1⟩ := hd
    by_cases h1 : k1 = k
    · simp [dictSet, h1] at h
      rcases h with h | h
      · exact Or.inr (by simp [h])
      · exact Or.inl (by simp [h])
    · simp [dictSet, h1] at h
      rcases h with h | h
      · exact Or.inl (by simp [h])
      · rcases ih h with h2 | h2
        · exact Or.inl (by simp [h2])
        · exact Or.inr h2

theorem mem_dictErase {κ α : Type} [DecidableEq κ] (d : Dict κ α) (k : κ)
    (e : κ × α) (h : e ∈ dictErase d k) : e ∈ d := by
  induction d with
  | nil => simp [dictErase] at h
  | cons hd tl ih =>
    obtain ⟨k1, v1⟩ := hd
    by_cases h1 : k1 = k
    · simp [dictErase, h1] at h
      simp [h]
    · simp [dictErase, h1] at h
      rcases h with h | h
      · simp [h]
      · simp [ih h]

theorem dictGetD_of_lookup_none {κ : Type} [DecidableEq κ] (d : Dict κ ℤ) (k : κ)
    (h : dictLookup d k = none) : dictGetD d k 0 = 0 := by
  simp [dictGetD, h]

theorem dictGetD_of_lookup_some {κ : Type} [DecidableEq κ] (d : Dict κ ℤ) (k : κ) (v : ℤ)
    (h : dictLookup d k = some v) : dictGetD d k 0 = v := by
  simp [dictGetD, h]

theorem sumValues_ensure (d : Dict ℤ ℤ) (k : ℤ) :
    sumValues (dictEnsure d k) = sumValues d := by
  unfold dictEnsure
  split
  · rfl
  · next hn =>
    rw [sumValues_set, dictGetD_of_lookup_none d k (Option.not_isSome_iff_eq_none.mp hn)]
    omega

theorem ensure_isSome (d : Dict ℤ ℤ) (k : ℤ) : (dictLookup (dictEnsure d k) k).isSome := by
  unfold dictEnsure
  split
  · next h => exact h
  · rw [dictLookup_set_self]
    rfl

theorem ensure_isSome_mono (d : Dict ℤ ℤ) (k k2 : ℤ) (h : (dictLookup d k2).isSome) :
    (dictLookup (dictEnsure d k) k2).isSome := by
  unfold dictEnsure
  split
  · exact h
  · exact dictLookup_set_isSome _ _ _ _ h

theorem dictGetD_set_eq_ite {κ : Type} [DecidableEq κ] (d : Dict κ ℤ) (k t : κ) (v : ℤ) :
    dictGetD (dictSet d k v) t 0 = if t = k then v else dictGetD d t 0 := by
  by_cases h : t = k
  · subst h
    simp [dictGetD_set_self]
  · simp [h, dictGetD_set_ne _ _ _ _ h]

theorem dictGetD_ensure (d : Dict ℤ ℤ) (k t : ℤ) :
    dictGetD (dictEnsure d k) t 0 = dictGetD d t 0 := by
  unfold dictEnsure
  split
  · rfl
  · next hn =>
    rw [dictGetD_set_eq_ite]
    split
    · next ht =>
      subst ht
      rw [dictGetD_of_lookup_none d t (Option.not_isSome_iff_eq_none.mp hn)]
    · rfl

theorem lookup_eq_some_getD {κ : Type} [DecidableEq κ] (d : Dict κ ℤ) (k : κ)
    (h : (dictLookup d k).isSome) : dictLookup d k = some (dictGetD d k 0) := by
  cases hd : dictLookup d k with
  | none => rw [hd] at h; cases h
  | some v => simp [dictGetD, hd]

/-- Ledger well-formedness preserved by all operations from a fresh pool:
the Tick Ledger sums to zero and every stored position's tick boundaries
have (possibly zero) Tick Ledger entries. -/
def LedgerInv (p : Pool) : Prop :=
  sumValues p.ticks = 0 ∧
    ∀ e ∈ p.positions, (dictLookup p.ticks e.1.2.1).isSome ∧
      (dictLookup p.ticks e.1.2.2).isSome

theorem ledgerInv_add (p : Pool) (o : ℕ) (l u a : ℤ) (h : LedgerInv p) :
    LedgerInv (add_position p o l u a) := by
  obtain ⟨hsum, hcov⟩ := h
  simp only [LedgerInv, add_position]
  set lt := alignTick l p.tick_spacing with hlt
  set ut := alignTick u p.tick_spacing with hut
  set t1 := dictEnsure (dictEnsure p.ticks lt) ut with ht1
  have hs1 : sumValues t1 = 0 := by
    rw [ht1, sumValues_ensure, sumValues_ensure]
    exact hsum
  have hlt1 : (dictLookup t1 lt).isSome := by
    rw [ht1]
    exact ensure_isSome_mono _ _ _ (ensure_isSome _ _)
  have hut1 : (dictLookup t1 ut).isSome := by
    rw [ht1]
    exact ensure_isSome _ _
  have hmono1 : ∀ k : ℤ, (dictLookup p.ticks k).isSome → (dictLookup t1 k).isSome := by
    intro k hk
    rw [ht1]
    exact ensure_isSome_mono _ _ _ (ensure_isSome_mono _ _ _ hk)
  constructor
  · rw [sumValues_set, sumValues_set, hs1]
    omega
  · intro e he
    rcases mem_dictSet _ _ _ _ he with hmem | hnew
    · obtain ⟨hcl, hcu⟩ := hcov e hmem
      exact ⟨dictLookup_set_isSome _ _ _ _ (dictLookup_set_isSome _ _ _ _ (hmono1 _ hcl)),
        dictLookup_set_isSome _ _ _ _ (dictLookup_set_isSome _ _ _ _ (hmono1 _ hcu))⟩
    · subst hnew
      exact ⟨dictLookup_set_isSome _ _ _ _ (dictLookup_set_isSome _ _ _ _ hlt1),
        dictLookup_set_isSome _ _ _ _ (dictLookup_set_isSome _ _ _ _ hut1)⟩

theorem ledgerInv_remove (p : Pool) (o : ℕ) (l u a : ℤ) (h : LedgerInv p) :
    LedgerInv ((remove_position p o l u a).pool) := by
  obtain ⟨hsum, hcov⟩ := h
  cases hp : dictLookup p.positions (o, l, u) with
  | none =>
    simp only [remove_position, hp, RemoveResult.pool]
    exact ⟨hsum, hcov⟩
  | some v =>
    by_cases hv : v < a
    · simp only [remove_position, hp, if_pos hv, RemoveResult.pool]
      exact ⟨hsum, hcov⟩
    · obtain ⟨hcl, hcu⟩ := hcov _ (dictLookup_some_mem _ _ _ hp)
      obtain ⟨dl, hdl⟩ := Option.isSome_iff_exists.mp hcl
      have hcu2 : (dictLookup (dictSet p.ticks l (dl - a)) u).isSome :=
        dictLookup_set_isSome _ _ _ _ hcu
      obtain ⟨du, hdu⟩ := Option.isSome_iff_exists.mp hcu2
      have hposmem : ∀ e ∈ (if v - a = 0 then dictErase p.positions (o, l, u)
          else dictSet p.positions (o, l, u) (v - a)), e ∈ p.positions ∨ e.1 = (o, l, u) := by
        intro e he
        split at he
        · exact Or.inl (mem_dictErase _ _ _ he)
        · rcases mem_dictSet _ _ _ _ he with hm | hm
          · exact Or.inl hm
          · exact Or.inr (by rw [hm])
      have hsum2 : sumValues (dictSet (dictSet p.ticks l (dl - a)) u (du + a)) = 0 := by
        rw [sumValues_set, dictGetD_of_lookup_some _ _ _ hdu, sumValues_set,
          dictGetD_of_lookup_some _ _ _ hdl]
        omega
      have hcov2 : ∀ e ∈ (if v - a = 0 then dictErase p.positions (o, l, u)
          else dictSet p.positions (o, l, u) (v - a)),
          (dictLookup (dictSet (dictSet p.ticks l (dl - a)) u (du + a)) e.1.2.1).isSome ∧
          (dictLookup (dictSet (dictSet p.ticks l (dl - a)) u (du + a)) e.1.2.2).isSome := by
        intro e he
        rcases hposmem e he with hm | hm
        · obtain ⟨h1, h2⟩ := hcov e hm
          exact ⟨dictLookup_set_isSome _ _ _ _ (dictLookup_set_isSome _ _ _ _ h1),
            dictLookup_set_isSome _ _ _ _ (dictLookup_set_isSome _ _ _ _ h2)⟩
        · rw [hm]
          exact ⟨dictLookup_set_isSome _ _ _ _ (dictLookup_set_isSome _ _ _ _ hcl),
            dictLookup_set_isSome _ _ _ _ (dictLookup_set_isSome _ _ _ _ hcu)⟩
      by_cases hrange : l ≤ p.tick ∧ p.tick < u
      · simp only [remove_position, hp, if_neg hv, hdl, hdu, if_pos hrange, RemoveResult.pool]
        exact ⟨hsum2, hcov2⟩
      · simp only [remove_position, hp, if_neg hv, hdl, hdu, if_neg hrange, RemoveResult.pool]
        exact ⟨hsum2, hcov2⟩

theorem ledgerInv_applyOps (p : Pool) (ops : List Op) (h : LedgerInv p) :
    LedgerInv (applyOps p ops) := by
  induction ops generalizing p with
  | nil => exact h
  | cons op rest ih =>
    cases op with
    | add o l u a => exact ih _ (ledgerInv_add p o l u a h)
    | remove o l u a => exact ih _ (ledgerInv_remove p o l u a h)

/-- C2: starting from any fresh pool (any fee, spacing, initial sqrt price
and hence any initial tick), every sequence of add/remove operations leaves
the sum of all Tick Ledger net deltas at exactly 0; since the sequence is
arbitrary, this holds after every operation of any run. -/
theorem claim_C2_zero_sum_ledger (fee : ℚ) (spacing sqrtPrice tick : ℤ) (ops : List Op) :
    sumValues (applyOps (initPool fee spacing sqrtPrice tick) ops).ticks = 0 :=
  (ledgerInv_applyOps (initPool fee spacing sqrtPrice tick) ops
    ⟨rfl, by intro e he; simp [initPool] at he⟩).1

/-! Positive-position invariant for claim C9. -/

theorem posPositive_apply (p : Pool) (op : Op) (hop : op.addAmountPos)
    (h : ∀ e ∈ p.positions, 0 < e.2) : ∀ e ∈ (op.apply p).positions, 0 < e.2 := by
  cases op with
  | add o l u a =>
    simp only [Op.addAmountPos] at hop
    simp only [Op.apply, add_position]
    intro e he
    rcases mem_dictSet _ _ _ _ he with hm | hm
    · exact h e hm
    · subst hm
      simp only
      cases hp : dictLookup p.positions (o, alignTick l p.tick_spacing, alignTick u p.tick_spacing) with
      | none => rw [dictGetD_of_lookup_none _ _ hp]; omega
      | some v =>
        rw [dictGetD_of_lookup_some _ _ _ hp]
        have := h _ (dictLookup_some_mem _ _ _ hp)
        simp only at this
        omega
  | remove o l u a =>
    simp only [Op.apply]
    cases hp : dictLookup p.positions (o, l, u) with
    | none => simp only [remove_position, hp, RemoveResult.pool]; exact h
    | some v =>
      by_cases hv : v < a
      · simp only [remove_position, hp, if_pos hv, RemoveResult.pool]
        exact h
      · have hnewpos : ∀ e ∈ (if v - a = 0 then dictErase p.positions (o, l, u)
            else dictSet p.positions (o, l, u) (v - a)), 0 < e.2 := by
          intro e he
          split at he
          · exact h e (mem_dictErase _ _ _ he)
          · next hne =>
            rcases mem_dictSet _ _ _ _ he with hm | hm
            · exact h e hm
            · subst hm
              simp only
              omega
        cases h1 : dictLookup p.ticks l with
        | none => simp only [remove_position, hp, if_neg hv, h1, RemoveResult.pool]; exact hnewpos
        | some dl =>
          cases h2 : dictLookup (dictSet p.ticks l (dl - a)) u with
          | none =>
            simp only [remove_position, hp, if_neg hv, h1, h2, RemoveResult.pool]
            exact hnewpos
          | some du =>
            by_cases hrange : l ≤ p.tick ∧ p.tick < u
            · simp only [remove_position, hp, if_neg hv, h1, h2, if_pos hrange,
                RemoveResult.pool]
              exact hnewpos
            · simp only [remove_position, hp, if_neg hv, h1, h2, if_neg hrange,
                RemoveResult.pool]
              exact hnewpos

theorem posPositive_applyOps (p : Pool) (ops : List Op) (hops : ∀ op ∈ ops, op.addAmountPos)
    (h : ∀ e ∈ p.positions, 0 < e.2) : ∀ e ∈ (applyOps p ops).positions, 0 < e.2 := by
  induction ops generalizing p with
  | nil => exact h
  | cons op rest ih =>
    exact ih _ (fun o ho => hops o (List.mem_cons_of_mem _ ho))
      (posPositive_apply p op (hops op (List.mem_cons_self op rest)) h)

/-- C9 counterexample: the claim allows amount 0 ("non-negative amounts"),
but `add_position` with amount 0 on a fresh pool creates a Position Ledger
entry with liquidity 0 that no operation removed. -/
theorem claim_C9_counterexample :
    dictLookup (applyOps (mkPool 0 1 (2 ^ 96)) [Op.add 0 0 10 0]).positions
      (0, 0, 10) = some 0 := rfl

/-- C9 as amended: if every `add_position` in the sequence carries a
strictly positive amount (removals unconstrained), then after any sequence
of operations from a fresh pool every Position Ledger entry has strictly
positive liquidity, so no zero-liquidity position exists. -/
theorem claim_C9_no_zero_positions_amended (fee : ℚ) (spacing sqrtPrice tick : ℤ)
    (ops : List Op) (hops : ∀ op ∈ ops, op.addAmountPos) :
    ∀ e ∈ (applyOps (initPool fee spacing sqrtPrice tick) ops).positions, 0 < e.2 :=
  posPositive_applyOps _ ops hops (by intro e he; cases he)

/-- Closed instance of C9 as amended: the single entry created by one
positive add is in the Position Ledger and its liquidity is positive. -/
theorem claim_C9_no_zero_positions_amended_witness :
    ((((0:ℕ), (0:ℤ), (10:ℤ)), (5:ℤ)) : PosKey × ℤ) ∈
        (applyOps (initPool 0 1 (2 ^ 96) 0) [Op.add 0 0 10 5]).positions ∧
      (0:ℤ) < ((((0:ℕ), (0:ℤ), (10:ℤ)), (5:ℤ)) : PosKey × ℤ).2 :=
  ⟨by decide,
   claim_C9_no_zero_positions_amended 0 1 (2 ^ 96) 0 [Op.add 0 0 10 5]
     (by intro op hop; simp at hop; subst hop; simp [Op.addAmountPos])
     _ (by decide)⟩

/-! Liquidity non-negativity under swaps (claim C3). -/

theorem cross_tick_liquidity_nonneg (p : Pool) (t : ℤ) : 0 ≤ (cross_tick p t).liquidity := by
  simp only [cross_tick]
  exact le_max_left 0 _

theorem crossAll_liquidity_nonneg (ts : List ℤ) (p : Pool) (h : 0 ≤ p.liquidity) :
    0 ≤ (crossAll ts p).liquidity := by
  induction ts generalizing p with
  | nil => exact h
  | cons t rest ih => exact ih _ (cross_tick_liquidity_nonneg p t)

theorem applyCrossings_liquidity_nonneg (p : Pool) (z : Bool) (o : ℤ)
    (h : 0 ≤ p.liquidity) : 0 ≤ (applyCrossings p z o).liquidity := by
  unfold applyCrossings
  split
  · split
    · exact crossAll_liquidity_nonneg _ _ h
    · exact crossAll_liquidity_nonneg _ _ h
  · exact h

theorem swapPriceStep_liquidity (p : Pool) (z : Bool) (a : ℚ) :
    ((swapPriceStep p z a).1).liquidity = p.liquidity := by
  simp only [swapPriceStep]
  split_ifs <;> rfl

theorem updateTickAndCross_liquidity_nonneg (p : Pool) (z : Bool) (o : ℤ)
    (h : 0 ≤ p.liquidity) : 0 ≤ (updateTickAndCross p z o).liquidity := by
  unfold updateTickAndCross
  exact applyCrossings_liquidity_nonneg _ _ _ h

theorem swap_simple_liquidity_nonneg (p : Pool) (z : Bool) (a : ℚ) (h : 0 ≤ p.liquidity) :
    0 ≤ ((swap_simple p z a).1).liquidity := by
  unfold swap_simple
  split
  · exact h
  · show 0 ≤ (updateTickAndCross (swapPriceStep p z a).1 z p.tick).liquidity
    refine updateTickAndCross_liquidity_nonneg _ _ _ ?_
    rw [swapPriceStep_liquidity]
    exact h

/-- C3: active liquidity stays non-negative across any sequence of swaps
(and the tick crossings they trigger) when it starts non-negative; the
`max 0` clamp at the end of `cross_tick` enforces this even when a crossed
delta exceeds the current liquidity. -/
theorem claim_C3_liquidity_nonneg (p : Pool) (swaps : List (Bool × ℚ))
    (h : 0 ≤ p.liquidity) : 0 ≤ (swapSeq p swaps).liquidity := by
  induction swaps generalizing p with
  | nil => exact h
  | cons s rest ih => exact ih _ (swap_simple_liquidity_nonneg p s.1 s.2 h)

/-- Closed instance of C3 at a concrete pool and swap list. -/
theorem claim_C3_liquidity_nonneg_witness :
    0 ≤ (swapSeq (initPool 0 1 (2 ^ 96) 0) [(true, 5)]).liquidity :=
  claim_C3_liquidity_nonneg (initPool 0 1 (2 ^ 96) 0) [(true, 5)] le_rfl

/-! Claim C4: add/remove inverse. -/

/-- C4 counterexample: the claim quantifies over all ticks l < u, but with
tick spacing 10 and the unaligned range [5, 15) an add followed by a remove
with identical arguments does not restore the pool: the removal fails with
the invalid-position error and the added position (stored under the aligned
key (0, 10)) survives, so the Position Ledger differs from its pre-add
value. -/
theorem claim_C4_counterexample :
    remove_position (add_position (mkPool 0 10 (2 ^ 96)) 0 5 15 7) 0 5 15 7 =
      .invalidPosition (add_position (mkPool 0 10 (2 ^ 96)) 0 5 15 7) ∧
      (add_position (mkPool 0 10 (2 ^ 96)) 0 5 15 7).positions ≠
        (mkPool 0 10 (2 ^ 96)).positions := by
  constructor
  · exact remove_misses_aligned_add _ 0 5 15 7 (by decide) rfl
  · intro hcontra
    have h1 : dictLookup (add_position (mkPool 0 10 (2 ^ 96)) 0 5 15 7).positions
        (0, 0, 10) = some 7 := rfl
    rw [hcontra] at h1
    simp [mkPool, initPool, dictLookup] at h1

/-- C4 as amended: when the two boundaries are already aligned to the tick
spacing (so that add and remove address the same key) and any position
already stored under that key has positive liquidity (zero-liquidity
entries cannot exist after positive-amount histories, and a pre-existing
zero entry would be deleted rather than restored), `add_position` followed
by `remove_position` with the same arguments succeeds and restores the
Position Ledger, active liquidity, and every Tick Ledger net delta exactly
(the two boundary ticks keep materialised entries, possibly back at delta
0, which is the one divergence from a verbatim dict equality). -/
theorem claim_C4_add_remove_inverse_amended (p : Pool) (o : ℕ) (l u A : ℤ)
    (hl : alignTick l p.tick_spacing = l) (hu : alignTick u p.tick_spacing = u)
    (hlt : l < u)
    (hpos : ∀ v, dictLookup p.positions (o, l, u) = some v → 0 < v) :
    ∃ p2, remove_position (add_position p o l u A) o l u A = .ok p2 ∧
      p2.positions = p.positions ∧ p2.liquidity = p.liquidity ∧
      ∀ t, dictGetD p2.ticks t 0 = dictGetD p.ticks t 0 := by
  have hnel : l ≠ u := ne_of_lt hlt
  have hneu : u ≠ l := (ne_of_lt hlt).symm
  set g := dictGetD p.positions (o, l, u) 0 with hgdef
  set t1 := dictEnsure (dictEnsure p.ticks l) u with ht1def
  set t2 := dictSet t1 l (dictGetD t1 l 0 + A) with ht2def
  set t3 := dictSet t2 u (dictGetD t2 u 0 - A) with ht3def
  set pos1 := dictSet p.positions (o, l, u) (g + A) with hpos1def
  set liq1 := if l ≤ p.tick ∧ p.tick < u then p.liquidity + A else p.liquidity with hliq1def
  have hadd : add_position p o l u A =
      { p with positions := pos1, ticks := t3, liquidity := liq1 } := by
    rw [hpos1def, ht3def, ht2def, ht1def, hliq1def, hgdef]
    simp only [add_position, hl, hu]
  have hlook1 : dictLookup pos1 (o, l, u) = some (g + A) := by
    rw [hpos1def]
    exact dictLookup_set_self _ _ _
  have hgnonneg : 0 ≤ g := by
    cases hp : dictLookup p.positions (o, l, u) with
    | none => rw [hgdef, dictGetD_of_lookup_none _ _ hp]
    | some v =>
      rw [hgdef, dictGetD_of_lookup_some _ _ _ hp]
      exact le_of_lt (hpos v hp)
  have hcheck : ¬(g + A < A) := by omega
  have hpos2 : (if g + A - A = 0 then dictErase pos1 (o, l, u)
      else dictSet pos1 (o, l, u) (g + A - A)) = p.positions := by
    by_cases hg0 : g = 0
    · rw [if_pos (by omega)]
      have hnone : dictLookup p.positions (o, l, u) = none := by
        cases hp : dictLookup p.positions (o, l, u) with
        | none => rfl
        | some v =>
          have hv := hpos v hp
          have hgv : g = v := by rw [hgdef, dictGetD_of_lookup_some _ _ _ hp]
          omega
      rw [hpos1def, hg0]
      exact dictErase_set_none _ _ _ hnone
    · rw [if_neg (by omega)]
      have hsome : dictLookup p.positions (o, l, u) = some g := by
        cases hp : dictLookup p.positions (o, l, u) with
        | none =>
          exfalso
          exact hg0 (by rw [hgdef, dictGetD_of_lookup_none _ _ hp])
        | some v =>
          have hgv : g = v := by rw [hgdef, dictGetD_of_lookup_some _ _ _ hp]
          rw [hgv]
      rw [hpos1def, dictSet_dictSet, show g + A - A = g by omega]
      exact dictSet_lookup_eq _ _ _ hsome
  have hl3 : (dictLookup t3 l).isSome := by
    rw [ht3def]
    refine dictLookup_set_isSome _ _ _ _ ?_
    rw [ht2def, dictLookup_set_self]
    rfl
  have hu3 : (dictLookup t3 u).isSome := by
    rw [ht3def, dictLookup_set_self]
    rfl
  have hdl : dictLookup t3 l = some (dictGetD t3 l 0) := lookup_eq_some_getD _ _ hl3
  set dl := dictGetD t3 l 0 with hdldef
  set t4 := dictSet t3 l (dl - A) with ht4def
  have hu4 : (dictLookup t4 u).isSome := by
    rw [ht4def]
    exact dictLookup_set_isSome _ _ _ _ hu3
  have hdu : dictLookup t4 u = some (dictGetD t4 u 0) := lookup_eq_some_getD _ _ hu4
  set du := dictGetD t4 u 0 with hdudef
  have hdlval : dl = dictGetD p.ticks l 0 + A := by
    rw [hdldef, ht3def, dictGetD_set_ne _ _ _ _ hnel, ht2def, dictGetD_set_self, ht1def,
      dictGetD_ensure, dictGetD_ensure]
  have hduval : du = dictGetD p.ticks u 0 - A := by
    rw [hdudef, ht4def, dictGetD_set_ne _ _ _ _ hneu, ht3def, dictGetD_set_self, ht2def,
      dictGetD_set_ne _ _ _ _ hneu, ht1def, dictGetD_ensure, dictGetD_ensure]
  have hticks : ∀ t, dictGetD (dictSet t4 u (du + A)) t 0 = dictGetD p.ticks t 0 := by
    intro t
    rw [dictGetD_set_eq_ite]
    by_cases htu : t = u
    · rw [if_pos htu, hduval, htu]
      omega
    · rw [if_neg htu, ht4def, dictGetD_set_eq_ite]
      by_cases htl : t = l
      · rw [if_pos htl, hdlval, htl]
        omega
      · rw [if_neg htl, ht3def, dictGetD_set_eq_ite, if_neg htu, ht2def,
          dictGetD_set_eq_ite, if_neg htl, ht1def, dictGetD_ensure, dictGetD_ensure]
  rw [hadd]
  by_cases hrange : l ≤ p.tick ∧ p.tick < u
  · have heq : remove_position
        { p with positions := pos1, ticks := t3, liquidity := liq1 } o l u A =
        .ok { p with
          positions := if g + A - A = 0 then dictErase pos1 (o, l, u)
            else dictSet pos1 (o, l, u) (g + A - A),
          ticks := dictSet t4 u (du + A),
          liquidity := liq1 - A } := by
      simp only [remove_position, hlook1, if_neg hcheck, hdl]
      rw [← ht4def]
      simp only [hdu, if_pos hrange]
    refine ⟨_, heq, hpos2, ?_, hticks⟩
    show liq1 - A = p.liquidity
    rw [hliq1def, if_pos hrange]
    omega
  · have heq : remove_position
        { p with positions := pos1, ticks := t3, liquidity := liq1 } o l u A =
        .ok { p with
          positions := if g + A - A = 0 then dictErase pos1 (o, l, u)
            else dictSet pos1 (o, l, u) (g + A - A),
          ticks := dictSet t4 u (du + A),
          liquidity := liq1 } := by
      simp only [remove_position, hlook1, if_neg hcheck, hdl]
      rw [← ht4def]
      simp only [hdu, if_neg hrange]
    refine ⟨_, heq, hpos2, ?_, hticks⟩
    show liq1 = p.liquidity
    rw [hliq1def, if_neg hrange]

/-- Closed instance of the amended C4 at a concrete aligned range. -/
theorem claim_C4_add_remove_inverse_amended_witness :
    ∃ p2, remove_position (add_position (initPool 0 10 (2 ^ 96) 0) 0 0 20 7) 0 0 20 7 =
        .ok p2 ∧
      p2.positions = (initPool 0 10 (2 ^ 96) 0).positions ∧
      p2.liquidity = (initPool 0 10 (2 ^ 96) 0).liquidity ∧
      ∀ t, dictGetD p2.ticks t 0 = dictGetD (initPool 0 10 (2 ^ 96) 0).ticks t 0 :=
  claim_C4_add_remove_inverse_amended (initPool 0 10 (2 ^ 96) 0) 0 0 20 7
    (by decide) (by decide) (by decide) (fun v h => nomatch h)

/-! Claim C5: bounded price impact. Bracketing facts for the stored sqrt
price and a pure price-impact bound, then the swap-level statement. -/

theorem floorSqrtX96_sq_le (q : ℚ) (hq : 0 ≤ q) :
    ((floorSqrtX96 q : ℤ) : ℚ) ^ 2 ≤ q * 2 ^ 192 := by
  unfold floorSqrtX96
  have h1 : Nat.sqrt (Int.toNat ⌊q * 2 ^ 192⌋) * Nat.sqrt (Int.toNat ⌊q * 2 ^ 192⌋) ≤
      Int.toNat ⌊q * 2 ^ 192⌋ := Nat.sqrt_le _
  have h2 : ((Int.toNat ⌊q * 2 ^ 192⌋ : ℕ) : ℚ) ≤ q * 2 ^ 192 := by
    have h0 : (0:ℤ) ≤ ⌊q * 2 ^ 192⌋ := Int.floor_nonneg.mpr (by positivity)
    have heq : ((Int.toNat ⌊q * 2 ^ 192⌋ : ℕ) : ℚ) = ((⌊q * 2 ^ 192⌋ : ℤ) : ℚ) := by
      exact_mod_cast Int.toNat_of_nonneg h0
    rw [heq]
    exact Int.floor_le _
  have h1q : ((Nat.sqrt (Int.toNat ⌊q * 2 ^ 192⌋) : ℕ) : ℚ) *
      ((Nat.sqrt (Int.toNat ⌊q * 2 ^ 192⌋) : ℕ) : ℚ) ≤
      ((Int.toNat ⌊q * 2 ^ 192⌋ : ℕ) : ℚ) := by exact_mod_cast h1
  push_cast
  nlinarith [h1q, h2]

theorem floorSqrtX96_lt_sq (q : ℚ) :
    q * 2 ^ 192 < (((floorSqrtX96 q : ℤ) : ℚ) + 1) ^ 2 := by
  unfold floorSqrtX96
  have h1 : Int.toNat ⌊q * 2 ^ 192⌋ <
      (Nat.sqrt (Int.toNat ⌊q * 2 ^ 192⌋) + 1) * (Nat.sqrt (Int.toNat ⌊q * 2 ^ 192⌋) + 1) :=
    Nat.lt_succ_sqrt _
  have h2 : q * 2 ^ 192 < ((Int.toNat ⌊q * 2 ^ 192⌋ : ℕ) : ℚ) + 1 := by
    have ha : ((⌊q * 2 ^ 192⌋ : ℤ) : ℚ) ≤ ((Int.toNat ⌊q * 2 ^ 192⌋ : ℕ) : ℚ) := by
      exact_mod_cast Int.self_le_toNat _
    have hb : q * 2 ^ 192 < ((⌊q * 2 ^ 192⌋ : ℤ) : ℚ) + 1 := Int.lt_floor_add_one _
    linarith
  have h1q : ((Int.toNat ⌊q * 2 ^ 192⌋ : ℕ) : ℚ) + 1 ≤
      (((Nat.sqrt (Int.toNat ⌊q * 2 ^ 192⌋) : ℕ) : ℚ) + 1) *
        (((Nat.sqrt (Int.toNat ⌊q * 2 ^ 192⌋) : ℕ) : ℚ) + 1) := by
    have := Nat.succ_le_of_lt h1
    exact_mod_cast this
  push_cast
  nlinarith [h1q, h2]

theorem floorSqrtX96_pos (q : ℚ) (hq : 1 ≤ q * 2 ^ 192) : 1 ≤ floorSqrtX96 q := by
  unfold floorSqrtX96
  have hm : 1 ≤ Int.toNat ⌊q * 2 ^ 192⌋ := by
    have h1 : (1 : ℤ) ≤ ⌊q * 2 ^ 192⌋ := Int.le_floor.mpr (by exact_mod_cast hq)
    omega
  exact_mod_cast Nat.le_sqrt.mpr (by omega : 1 * 1 ≤ Int.toNat ⌊q * 2 ^ 192⌋)

theorem floorSqrtX96_nonneg (q : ℚ) : 0 ≤ floorSqrtX96 q := Int.natCast_nonneg _

/-- Bound on the stored-vs-requested sqrt price rounding slack: for any
price at least 1/10, the Q64.96 flooring loses at most sp0/2^80 in the
descaled price. Key inequality: 2·S + 1 ≤ sp0 · 2^112 whenever
S^2 ≤ 2 · sp0 · 2^192. -/
theorem twoS_le (S sp0 : ℚ) (hS0 : 0 ≤ S) (hsp : 1/10 ≤ sp0)
    (hS2 : S ^ 2 ≤ 2 * sp0 * 2 ^ 192) : 2 * S + 1 ≤ sp0 * 2 ^ 112 := by
  rcases le_or_lt S (2 ^ 107) with hc | hc
  · nlinarith [hsp]
  · have hSS : (2 ^ 107 : ℚ) * S < S * S := by nlinarith
    nlinarith [hS2, hSS, hsp]

/-- Price-impact bound, selling token0 (price moves down): the stored
descaled price after the swap lies within [(9/10)·sp0 − sp0/2^80, sp0]. -/
theorem priceImpactDown_bound (sp0 f : ℚ) (hsp : 1/10 ≤ sp0) (hf0 : 0 ≤ f)
    (hf1 : f ≤ 1/10) :
    |(((max 1 (floorSqrtX96 (max (1/10) (sp0 * (1 - f)))) : ℤ) : ℚ) / 2 ^ 96) ^ 2 - sp0| ≤
      (1/10 + 1/2 ^ 80) * sp0 := by
  set q := max (1/10 : ℚ) (sp0 * (1 - f)) with hq
  have hsp0 : (0:ℚ) < sp0 := by linarith
  have hq_ge : 9/10 * sp0 ≤ q := by
    rcases le_or_lt (1/10 : ℚ) (sp0 * (1 - f)) with h | h
    · rw [hq, max_eq_right h]
      nlinarith
    · rw [hq, max_eq_left (le_of_lt h)]
      nlinarith
  have hq_le : q ≤ sp0 := by
    rw [hq]
    apply max_le hsp
    nlinarith
  have hq_pos : (0:ℚ) < q := by nlinarith
  have hq192 : (1:ℚ) ≤ q * 2 ^ 192 := by nlinarith
  have hS1 : 1 ≤ floorSqrtX96 q := floorSqrtX96_pos q hq192
  rw [max_eq_right hS1]
  set S : ℚ := ((floorSqrtX96 q : ℤ) : ℚ) with hSdef
  have hS0 : (0:ℚ) ≤ S := by
    rw [hSdef]
    exact_mod_cast floorSqrtX96_nonneg q
  have hup : S ^ 2 ≤ q * 2 ^ 192 := floorSqrtX96_sq_le q (le_of_lt hq_pos)
  have hlow : q * 2 ^ 192 < (S + 1) ^ 2 := floorSqrtX96_lt_sq q
  have h2S : 2 * S + 1 ≤ sp0 * 2 ^ 112 := twoS_le S sp0 hS0 hsp (by nlinarith)
  have hPle : (S / 2 ^ 96) ^ 2 ≤ q := by
    rw [div_pow, div_le_iff (by positivity)]
    nlinarith [hup]
  have hPge : q - sp0 / 2 ^ 80 ≤ (S / 2 ^ 96) ^ 2 := by
    rw [div_pow, le_div_iff (by positivity)]
    nlinarith [hlow, h2S]
  rw [abs_le]
  constructor
  · nlinarith [hPge, hq_ge]
  · nlinarith [hPle, hq_le]

/-- Price-impact bound, selling token1 (price moves up): the stored
descaled price after the swap lies within [sp0 − sp0/2^80, (11/10)·sp0]. -/
theorem priceImpactUp_bound (sp0 f : ℚ) (hsp : 1/10 ≤ sp0) (hf0 : 0 ≤ f)
    (hf1 : f ≤ 1/10) :
    |(((floorSqrtX96 (sp0 * (1 + f)) : ℤ) : ℚ) / 2 ^ 96) ^ 2 - sp0| ≤
      (1/10 + 1/2 ^ 80) * sp0 := by
  set q := sp0 * (1 + f) with hq
  have hsp0 : (0:ℚ) < sp0 := by linarith
  have hq_ge : sp0 ≤ q := by rw [hq]; nlinarith
  have hq_le : q ≤ 11/10 * sp0 := by rw [hq]; nlinarith
  have hq_pos : (0:ℚ) < q := by linarith
  set S : ℚ := ((floorSqrtX96 q : ℤ) : ℚ) with hSdef
  have hS0 : (0:ℚ) ≤ S := by
    rw [hSdef]
    exact_mod_cast floorSqrtX96_nonneg q
  have hup : S ^ 2 ≤ q * 2 ^ 192 := floorSqrtX96_sq_le q (le_of_lt hq_pos)
  have hlow : q * 2 ^ 192 < (S + 1) ^ 2 := floorSqrtX96_lt_sq q
  have h2S : 2 * S + 1 ≤ sp0 * 2 ^ 112 := twoS_le S sp0 hS0 hsp (by nlinarith)
  have hPle : (S / 2 ^ 96) ^ 2 ≤ q := by
    rw [div_pow, div_le_iff (by positivity)]
    nlinarith [hup]
  have hPge : q - sp0 / 2 ^ 80 ≤ (S / 2 ^ 96) ^ 2 := by
    rw [div_pow, le_div_iff (by positivity)]
    nlinarith [hlow, h2S]
  rw [abs_le]
  constructor
  · nlinarith [hPge, hq_ge]
  · nlinarith [hPle, hq_le]

/-! The crossings never touch the stored sqrt price. -/

theorem crossAll_sqrt (ts : List ℤ) (p : Pool) :
    (crossAll ts p).sqrt_price_x96 = p.sqrt_price_x96 := by
  induction ts generalizing p with
  | nil => rfl
  | cons t rest ih => exact (ih (cross_tick p t)).trans rfl

theorem applyCrossings_sqrt (p : Pool) (z : Bool) (o : ℤ) :
    (applyCrossings p z o).sqrt_price_x96 = p.sqrt_price_x96 := by
  unfold applyCrossings
  split
  · split
    · exact crossAll_sqrt _ _
    · exact crossAll_sqrt _ _
  · rfl

theorem updateTickAndCross_sqrt (p : Pool) (z : Bool) (o : ℤ) :
    (updateTickAndCross p z o).sqrt_price_x96 = p.sqrt_price_x96 := by
  unfold updateTickAndCross
  rw [applyCrossings_sqrt]

theorem swapPriceStep_price_bound (p : Pool) (z : Bool) (a : ℚ)
    (hai : 0 ≤ a * (1 - p.fee)) (hp : 1/10 ≤ descaledPrice p) :
    |descaledPrice (swapPriceStep p z a).1 - descaledPrice p| ≤
      (1/10 + 1/2 ^ 80) * descaledPrice p := by
  have hnc : ¬(descaledPrice p < 1/10) := not_lt.mpr hp
  have heff : (0:ℚ) < max 1000000 ((p.liquidity : ℚ) / 10 ^ 9) * 100 := by
    have h1 : (1000000:ℚ) ≤ max 1000000 ((p.liquidity : ℚ) / 10 ^ 9) := le_max_left _ _
    nlinarith
  have hf0 : 0 ≤ min (a * (1 - p.fee) /
      (max 1000000 ((p.liquidity : ℚ) / 10 ^ 9) * 100)) (1/10) :=
    le_min (div_nonneg hai (le_of_lt heff)) (by norm_num)
  have hf1 : min (a * (1 - p.fee) /
      (max 1000000 ((p.liquidity : ℚ) / 10 ^ 9) * 100)) (1/10) ≤ 1/10 := min_le_right _ _
  cases z with
  | true =>
    have hsq : (swapPriceStep p true a).1.sqrt_price_x96 =
        max 1 (floorSqrtX96 (max (1/10) (descaledPrice p *
          (1 - min (a * (1 - p.fee) /
            (max 1000000 ((p.liquidity : ℚ) / 10 ^ 9) * 100)) (1/10))))) := by
      simp only [swapPriceStep, if_neg hnc, ite_true, if_true]
    have hgoal : descaledPrice (swapPriceStep p true a).1 =
        (((max 1 (floorSqrtX96 (max (1/10) (descaledPrice p *
          (1 - min (a * (1 - p.fee) /
            (max 1000000 ((p.liquidity : ℚ) / 10 ^ 9) * 100)) (1/10))))) : ℤ) : ℚ) / 2 ^ 96) ^ 2 := by
      rw [show descaledPrice (swapPriceStep p true a).1 =
        ((((swapPriceStep p true a).1.sqrt_price_x96 : ℤ) : ℚ) / 2 ^ 96) ^ 2 from rfl, hsq]
    rw [hgoal]
    exact priceImpactDown_bound (descaledPrice p) _ hp hf0 hf1
  | false =>
    have hsq : (swapPriceStep p false a).1.sqrt_price_x96 =
        floorSqrtX96 (descaledPrice p *
          (1 + min (a * (1 - p.fee) /
            (max 1000000 ((p.liquidity : ℚ) / 10 ^ 9) * 100)) (1/10))) := by
      simp only [swapPriceStep, if_neg hnc, Bool.false_eq_true, ite_false, if_false]
    have hgoal : descaledPrice (swapPriceStep p false a).1 =
        (((floorSqrtX96 (descaledPrice p *
          (1 + min (a * (1 - p.fee) /
            (max 1000000 ((p.liquidity : ℚ) / 10 ^ 9) * 100)) (1/10))) : ℤ) : ℚ) / 2 ^ 96) ^ 2 := by
      rw [show descaledPrice (swapPriceStep p false a).1 =
        ((((swapPriceStep p false a).1.sqrt_price_x96 : ℤ) : ℚ) / 2 ^ 96) ^ 2 from rfl, hsq]
    rw [hgoal]
    exact priceImpactUp_bound (descaledPrice p) _ hp hf0 hf1

/-- C5 as amended: for a pool whose fee is a fraction in [0, 1] and whose
descaled pre-swap price is at least 0.1 (so neither low-price clamp can
fire), a single swap moves the descaled price by at most a fraction
1/10 + 2^-80 of the old price: the documented 10% cap plus the Q64.96
quantisation slack of the stored sqrt price. -/
theorem claim_C5_bounded_impact_amended (p : Pool) (z : Bool) (a : ℚ)
    (hfee0 : 0 ≤ p.fee) (hfee1 : p.fee ≤ 1) (hp : 1/10 ≤ descaledPrice p) :
    |descaledPrice (swap_simple p z a).1 - descaledPrice p| ≤
      (1/10 + 1/2 ^ 80) * descaledPrice p := by
  by_cases hno : a ≤ 0 ∨ p.liquidity ≤ 0
  · unfold swap_simple
    rw [if_pos hno]
    show |descaledPrice p - descaledPrice p| ≤ _
    rw [sub_self, abs_zero]
    nlinarith [hp]
  · push_neg at hno
    have hsq2 : (swap_simple p z a).1.sqrt_price_x96 =
        (swapPriceStep p z a).1.sqrt_price_x96 := by
      unfold swap_simple
      rw [if_neg (by push_neg; exact hno)]
      show (updateTickAndCross (swapPriceStep p z a).1 z p.tick).sqrt_price_x96 = _
      exact updateTickAndCross_sqrt _ _ _
    have hdp : descaledPrice (swap_simple p z a).1 = descaledPrice (swapPriceStep p z a).1 := by
      rw [show descaledPrice (swap_simple p z a).1 =
        ((((swap_simple p z a).1.sqrt_price_x96 : ℤ) : ℚ) / 2 ^ 96) ^ 2 from rfl, hsq2]
      rfl
    rw [hdp]
    exact swapPriceStep_price_bound p z a
      (mul_nonneg (le_of_lt hno.1) (by linarith)) hp

/-- Closed instance of the amended C5 at a concrete pool of price 1. -/
theorem claim_C5_bounded_impact_amended_witness :
    |descaledPrice (swap_simple (initPool 0 1 (2 ^ 96) 0) true 5).1 -
        descaledPrice (initPool 0 1 (2 ^ 96) 0)| ≤
      (1/10 + 1/2 ^ 80) * descaledPrice (initPool 0 1 (2 ^ 96) 0) :=
  claim_C5_bounded_impact_amended (initPool 0 1 (2 ^ 96) 0) true 5 le_rfl
    (by norm_num [initPool]) (by norm_num [descaledPrice, initPool])

/-! Real-log toolkit for the tick converter, used by the C5 counterexample
and the C8 round-trip theorem. -/

theorem logb_sqrt_eq (x : ℝ) :
    Real.logb (Real.sqrt 1.0001) x = 2 * Real.log x / Real.log 1.0001 := by
  simp only [Real.logb, Real.log_sqrt (le_of_lt (by norm_num : (0:ℝ) < 1.0001))]
  rw [div_div_eq_mul_div]
  ring

theorem log_10001_pos : (0:ℝ) < Real.log 1.0001 := Real.log_pos (by norm_num)

theorem log_10001_le : Real.log 1.0001 ≤ 1/10000 := by
  have h := Real.log_le_sub_one_of_pos (by norm_num : (0:ℝ) < 1.0001)
  norm_num at h
  linarith

theorem log_10001_ge : 1/10001 ≤ Real.log 1.0001 := by
  have h := Real.log_le_sub_one_of_pos (show (0:ℝ) < (1.0001:ℝ)⁻¹ by norm_num)
  rw [Real.log_inv] at h
  have h2 : ((1.0001:ℝ))⁻¹ = 10000/10001 := by norm_num
  rw [h2] at h
  linarith

/-- Lower bound on the tick of sqrt price 2^92 (descaled price 1/256):
b^450000 ≥ 1 + 45 ≥ 16 by the Bernoulli inequality, so
log(1/16) ≥ -450000·log b and the floored log is at least -900000. -/
theorem tick92_lb : -900000 ≤ get_tick_at_sqrt_price (2 ^ 92) := by
  unfold get_tick_at_sqrt_price
  rw [if_neg (by norm_num : ¬(2 ^ 92 : ℤ) ≤ 0)]
  rw [Int.le_floor]
  have harg : (((2 ^ 92 : ℤ) : ℤ) : ℝ) / 2 ^ 96 = 1/16 := by norm_num
  rw [harg, logb_sqrt_eq]
  have h16 : Real.log (1/16 : ℝ) = -(4 * Real.log 2) := by
    rw [one_div, Real.log_inv, show (16:ℝ) = 2 ^ (4:ℕ) from by norm_num, Real.log_pow]
    push_cast
    ring
  have hlog : -(450000 * Real.log 1.0001) ≤ Real.log (1/16 : ℝ) := by
    rw [h16]
    have h2 : Real.log 2 ≤ 0.6931471808 := le_of_lt Real.log_two_lt_d9
    linarith [log_10001_ge, h2]
  push_cast
  rw [le_div_iff log_10001_pos]
  linarith [hlog]

theorem tick92_ub : get_tick_at_sqrt_price (2 ^ 92) < 900000 := by
  unfold get_tick_at_sqrt_price
  rw [if_neg (by norm_num : ¬(2 ^ 92 : ℤ) ≤ 0)]
  have harg : (((2 ^ 92 : ℤ) : ℤ) : ℝ) / 2 ^ 96 = 1/16 := by norm_num
  rw [harg, logb_sqrt_eq]
  have hneg : Real.log (1/16 : ℝ) < 0 := Real.log_neg (by norm_num) (by norm_num)
  have hx : 2 * Real.log (1/16 : ℝ) / Real.log 1.0001 ≤ 0 :=
    div_nonpos_iff.mpr (Or.inr ⟨by linarith, le_of_lt log_10001_pos⟩)
  have hfl : ⌊2 * Real.log (1/16 : ℝ) / Real.log 1.0001⌋ ≤ 0 := Int.floor_nonpos hx
  omega

theorem alignTick_one (t : ℤ) : alignTick t 1 = t := by
  unfold alignTick
  rw [Int.fdiv_one, mul_one]

/-- Pool at descaled price 1/256 (below the swap's 0.1 price floor) with an
in-range position supplying active liquidity 10^6; constructible by
`__init__` at sqrt price 2^92 followed by one `add_position`. -/
noncomputable def lowPricePool : Pool :=
  add_position (mkPool 0 1 (2 ^ 92)) 0 (-900000) 900000 (10 ^ 6)

theorem lowPricePool_fee : lowPricePool.fee = 0 := rfl

theorem lowPricePool_sqrt : lowPricePool.sqrt_price_x96 = 2 ^ 92 := rfl

theorem lowPricePool_price : descaledPrice lowPricePool = 1/256 := by
  unfold descaledPrice
  rw [lowPricePool_sqrt]
  norm_num

theorem lowPricePool_liquidity : lowPricePool.liquidity = 10 ^ 6 := by
  show (if alignTick (-900000) 1 ≤ get_tick_at_sqrt_price (2 ^ 92) ∧
      get_tick_at_sqrt_price (2 ^ 92) < alignTick 900000 1
    then (0:ℤ) + 10 ^ 6 else (0:ℤ)) = 10 ^ 6
  rw [if_pos]
  · norm_num
  · rw [alignTick_one, alignTick_one]
    exact ⟨tick92_lb, tick92_ub⟩

theorem lowPriceSwap_sqrt :
    (swap_simple lowPricePool true (10 ^ 10)).1.sqrt_price_x96 = floorSqrtX96 (1/10) := by
  have hnoop : ¬((10 ^ 10 : ℚ) ≤ 0 ∨ lowPricePool.liquidity ≤ 0) := by
    push_neg
    refine ⟨by norm_num, ?_⟩
    rw [lowPricePool_liquidity]
    norm_num
  have h1 : (swap_simple lowPricePool true (10 ^ 10)).1.sqrt_price_x96 =
      (swapPriceStep lowPricePool true (10 ^ 10)).1.sqrt_price_x96 := by
    unfold swap_simple
    rw [if_neg hnoop]
    show (updateTickAndCross (swapPriceStep lowPricePool true (10 ^ 10)).1 true
      lowPricePool.tick).sqrt_price_x96 = _
    exact updateTickAndCross_sqrt _ _ _
  rw [h1]
  have hclamp : descaledPrice lowPricePool < 1/10 := by
    rw [lowPricePool_price]
    norm_num
  simp only [swapPriceStep, if_pos hclamp, ite_true, if_true, lowPricePool_fee,
    lowPricePool_liquidity, lowPricePool_price]
  norm_num [max_def, min_def]
  intro hlt
  exact absurd (floorSqrtX96_pos (1/10) (by norm_num)) (not_le.mpr hlt)

theorem sqrtTenth_lb : (2 ^ 94 : ℤ) ≤ floorSqrtX96 (1/10) := by
  unfold floorSqrtX96
  have hfl : ⌊(1/10 : ℚ) * 2 ^ 192⌋ =
      (627710173538668076383578942320766641610235544446403451289 : ℤ) := by
    norm_num
  rw [hfl]
  have h1 : (2 ^ 94 : ℕ) ≤ Nat.sqrt (Int.toNat
      (627710173538668076383578942320766641610235544446403451289 : ℤ)) := by
    apply Nat.le_sqrt.mpr
    norm_num [Int.toNat_ofNat]
  exact_mod_cast h1

/-- C5 counterexample: on the (constructible) pool of descaled price 1/256
(a value below the 0.1 floor, against which nothing in the constructor
guards), a large zeroForOne swap first clamps the working price up to 0.05
and then floors the new price at 0.1, so the stored price ends at about
0.1: a relative move of roughly 2460%, far beyond the claimed 10% bound. -/
theorem sq_price_mono (x : ℤ) (c : ℚ) (hc : 0 ≤ c) (hx : c * 2 ^ 96 ≤ (x : ℚ)) :
    c ^ 2 ≤ ((x : ℚ) / 2 ^ 96) ^ 2 := by
  have h96 : (0:ℚ) < 2 ^ 96 := by positivity
  have hd : c ≤ (x : ℚ) / 2 ^ 96 := (le_div_iff h96).mpr hx
  have hx0 : (0:ℚ) ≤ (x : ℚ) / 2 ^ 96 := le_trans hc hd
  nlinarith [hd, hc, hx0]

theorem claim_C5_counterexample :
    ¬(|descaledPrice (swap_simple lowPricePool true (10 ^ 10)).1 -
        descaledPrice lowPricePool| / descaledPrice lowPricePool ≤ 1/10) := by
  have hnew : (1/16 : ℚ) ≤ descaledPrice (swap_simple lowPricePool true (10 ^ 10)).1 := by
    have hd2 : descaledPrice (swap_simple lowPricePool true (10 ^ 10)).1 =
        ((floorSqrtX96 (1/10) : ℚ) / 2 ^ 96) ^ 2 := by
      unfold descaledPrice
      rw [lowPriceSwap_sqrt]
    rw [hd2]
    have h := sq_price_mono (floorSqrtX96 (1/10)) (1/4) (by norm_num) ?hx
    case hx =>
      have hSq : ((2 ^ 94 : ℤ) : ℚ) ≤ ((floorSqrtX96 (1/10) : ℤ) : ℚ) := by
        exact_mod_cast sqrtTenth_lb
      have he : (1/4 : ℚ) * 2 ^ 96 = ((2 ^ 94 : ℤ) : ℚ) := by norm_num
      rw [he]
      exact hSq
    calc (1/16 : ℚ) = (1/4 : ℚ) ^ 2 := by norm_num
    _ ≤ _ := h
  intro hcontra
  rw [lowPricePool_price] at hcontra
  have habs : |descaledPrice (swap_simple lowPricePool true (10 ^ 10)).1 - 1/256| =
      descaledPrice (swap_simple lowPricePool true (10 ^ 10)).1 - 1/256 := by
    apply abs_of_nonneg
    linarith
  rw [habs, div_le_iff (by norm_num : (0:ℚ) < 1/256)] at hcontra
  linarith

/-! Claim C8: the price-tick round trip. -/

theorem log_one_sub_ge (e : ℝ) (h0 : 0 ≤ e) (h1 : e ≤ 1/2) : -(2*e) ≤ Real.log (1 - e) := by
  have hpos : (0:ℝ) < 1 - e := by linarith
  have hinv : (0:ℝ) < (1 - e)⁻¹ := by positivity
  have h := Real.log_le_sub_one_of_pos hinv
  rw [Real.log_inv] at h
  have h2 : (1 - e)⁻¹ - 1 = e / (1 - e) := by field_simp
  rw [h2] at h
  have h3 : e / (1 - e) ≤ 2 * e := by
    rw [div_le_iff hpos]
    nlinarith
  linarith

theorem pow_443636_le : (1.0001:ℝ) ^ (443636:ℕ) ≤ 2 ^ (72:ℕ) := by
  have hppos : (0:ℝ) < 1.0001 ^ (443636:ℕ) := by positivity
  have h2pos : (0:ℝ) < 2 ^ (72:ℕ) := by positivity
  rw [← Real.log_le_log_iff hppos h2pos, Real.log_pow, Real.log_pow]
  have hl2 := Real.log_two_gt_d9
  have hlb := log_10001_le
  push_cast
  nlinarith

/-- C8: for every tick in [-887272, 887272], converting to a sqrt price and
back yields a tick within 1 of the original. The floored sqrt price drops
less than one unit from a value of at least 2^24, so the recovered log
differs from the tick by less than 2^-8, and flooring moves it down by at
most one. (Source float arithmetic is modelled as exact real arithmetic.) -/
theorem claim_C8_tick_roundtrip (t : ℤ) (hlo : -887272 ≤ t) (hhi : t ≤ 887272) :
    |get_tick_at_sqrt_price (get_sqrt_price_at_tick t) - t| ≤ 1 := by
  have hb0 : (0:ℝ) < 1.0001 := by norm_num
  have hb1 : (1:ℝ) < 1.0001 := by norm_num
  have hlogpos := log_10001_pos
  have hclamp : max (-887272) (min t 887272) = t := by
    rw [min_eq_left hhi, max_eq_right hlo]
  set B : ℝ := 1.0001 ^ ((t:ℝ)/2) * 2 ^ 96 with hB
  have hrpos : (0:ℝ) < 1.0001 ^ ((t:ℝ)/2) := Real.rpow_pos_of_pos hb0 _
  have hBpos : 0 < B := by
    rw [hB]
    positivity
  have hsq : get_sqrt_price_at_tick t = ⌊B⌋ := by
    unfold get_sqrt_price_at_tick
    rw [hclamp, hB]
  have hBlb : (2:ℝ) ^ (24:ℕ) ≤ B := by
    have hexp : ((-443636:ℝ)) ≤ (t:ℝ)/2 := by
      have hcast : ((-887272:ℤ):ℝ) ≤ (t:ℝ) := by exact_mod_cast hlo
      push_cast at hcast
      linarith
    have hmono : (1.0001:ℝ) ^ ((-443636:ℝ)) ≤ 1.0001 ^ ((t:ℝ)/2) :=
      Real.rpow_le_rpow_of_exponent_le (le_of_lt hb1) hexp
    have hneg : (1.0001:ℝ) ^ ((-443636:ℝ)) = ((1.0001:ℝ) ^ (443636:ℕ))⁻¹ := by
      rw [show ((-443636:ℝ)) = -((443636:ℕ):ℝ) by push_cast; ring]
      rw [Real.rpow_neg (le_of_lt hb0), Real.rpow_natCast]
    have hinv : ((2:ℝ) ^ (72:ℕ))⁻¹ ≤ ((1.0001:ℝ) ^ (443636:ℕ))⁻¹ :=
      inv_le_inv_of_le (by positivity) pow_443636_le
    rw [hB]
    calc (2:ℝ) ^ (24:ℕ) = ((2:ℝ) ^ (72:ℕ))⁻¹ * 2 ^ 96 := by
          rw [show (96:ℕ) = 72 + 24 from rfl, pow_add]
          field_simp
    _ ≤ ((1.0001:ℝ) ^ (443636:ℕ))⁻¹ * 2 ^ 96 :=
          mul_le_mul_of_nonneg_right hinv (by positivity)
    _ ≤ 1.0001 ^ ((t:ℝ)/2) * 2 ^ 96 := by
          refine mul_le_mul_of_nonneg_right ?_ (by positivity)
          rw [← hneg]
          exact hmono
  set m : ℤ := ⌊B⌋ with hm
  have hm1 : (1:ℤ) ≤ m := by
    rw [hm, Int.le_floor]
    calc ((1:ℤ):ℝ) ≤ (2:ℝ) ^ (24:ℕ) := by norm_num
    _ ≤ B := hBlb
  have hmpos : ¬(m ≤ 0) := by omega
  have hmr : (0:ℝ) < (m:ℝ) := by exact_mod_cast lt_of_lt_of_le Int.zero_lt_one hm1
  rw [hsq]
  unfold get_tick_at_sqrt_price
  rw [if_neg hmpos, logb_sqrt_eq]
  have hup : ⌊2 * Real.log ((m:ℝ)/2 ^ 96) / Real.log 1.0001⌋ ≤ t := by
    have h1 : (m:ℝ) ≤ B := by rw [hm]; exact Int.floor_le B
    have h2 : (m:ℝ)/2 ^ 96 ≤ 1.0001 ^ ((t:ℝ)/2) := by
      rw [div_le_iff (by positivity : (0:ℝ) < 2 ^ 96)]
      rw [hB] at h1
      linarith
    have h3 : Real.log ((m:ℝ)/2 ^ 96) ≤ (t:ℝ)/2 * Real.log 1.0001 := by
      have hlogle := Real.log_le_log (by positivity : (0:ℝ) < (m:ℝ)/2 ^ 96) h2
      rwa [Real.log_rpow hb0] at hlogle
    have h4 : 2 * Real.log ((m:ℝ)/2 ^ 96) / Real.log 1.0001 ≤ ((t:ℤ):ℝ) := by
      rw [div_le_iff hlogpos]
      push_cast
      nlinarith [h3]
    calc ⌊2 * Real.log ((m:ℝ)/2 ^ 96) / Real.log 1.0001⌋ ≤ ⌊((t:ℤ):ℝ)⌋ :=
          Int.floor_le_floor h4
    _ = t := Int.floor_intCast t
  have hlow : t - 1 ≤ ⌊2 * Real.log ((m:ℝ)/2 ^ 96) / Real.log 1.0001⌋ := by
    set e : ℝ := 1/B with he
    have he0 : (0:ℝ) ≤ e := by positivity
    have he24 : e ≤ ((2:ℝ) ^ (24:ℕ))⁻¹ := by
      rw [he, one_div]
      exact inv_le_inv_of_le (by positivity) hBlb
    have heup : e ≤ 1/2 := by
      have : ((2:ℝ) ^ (24:ℕ))⁻¹ ≤ 1/2 := by norm_num
      linarith
    have hmB : B * (1 - e) ≤ (m:ℝ) := by
      have h5 : B - 1 < (m:ℝ) := by
        rw [hm]
        exact_mod_cast Int.sub_one_lt_floor B
      have h6 : B * (1 - e) = B - 1 := by
        rw [he]
        field_simp
      rw [h6]
      linarith
    have hratio : 1.0001 ^ ((t:ℝ)/2) * (1 - e) ≤ (m:ℝ)/2 ^ 96 := by
      rw [le_div_iff (by positivity : (0:ℝ) < 2 ^ 96)]
      calc 1.0001 ^ ((t:ℝ)/2) * (1 - e) * 2 ^ 96 = B * (1 - e) := by rw [hB]; ring
      _ ≤ (m:ℝ) := hmB
    have h7 : (t:ℝ)/2 * Real.log 1.0001 + Real.log (1 - e) ≤ Real.log ((m:ℝ)/2 ^ 96) := by
      have h1me : (0:ℝ) < 1 - e := by linarith
      have hprodpos : (0:ℝ) < 1.0001 ^ ((t:ℝ)/2) * (1 - e) := by positivity
      have hlogle := Real.log_le_log hprodpos hratio
      rw [Real.log_mul (ne_of_gt hrpos) (ne_of_gt h1me), Real.log_rpow hb0] at hlogle
      linarith
    have h8 : -(2*e) ≤ Real.log (1 - e) := log_one_sub_ge e he0 heup
    have h9 : 4*e < Real.log 1.0001 := by
      have hl := log_10001_ge
      have hn : (4:ℝ) * ((2:ℝ) ^ (24:ℕ))⁻¹ < 1/10001 := by norm_num
      nlinarith [he24]
    have h10 : ((t:ℤ):ℝ) - 1 < 2 * Real.log ((m:ℝ)/2 ^ 96) / Real.log 1.0001 := by
      rw [lt_div_iff hlogpos]
      push_cast
      nlinarith [h7, h8, h9]
    rw [Int.le_floor]
    push_cast
    push_cast at h10
    linarith
  rw [abs_le]
  omega

/-- Closed instance of C8 at tick 0. -/
theorem claim_C8_tick_roundtrip_witness :
    |get_tick_at_sqrt_price (get_sqrt_price_at_tick 0) - 0| ≤ 1 :=
  claim_C8_tick_roundtrip 0 (by decide) (by decide)

end UniSim
